import Mathlib

set_option linter.unnecessarySeqFocus false
set_option linter.unreachableTactic false
set_option linter.unusedTactic false
set_option linter.unusedVariables false

/-!
Shallow embedding of the plaingrain-orchestrator server (src/server.js and the
two earlier revisions in src/unnamed/) and proofs about its generative-response
pipeline: the listing-suggest output hardener, mode selection, /sync/user
idempotent ingestion, and handler control flow.

JavaScript values that can result from JSON.parse are modelled by the inductive
type JSVal.  A number carries its rational value together with a Boolean that
records whether Number.isFinite holds of it (JSON.parse can yield Infinity from
inputs such as 1e999).  A JavaScript object is modelled as an association list
of own enumerable string-keyed properties in insertion order; property lookup
returns an Option, with none standing for the JavaScript value undefined.
-/

set_option autoImplicit false

namespace PlainGrain

/-- A JavaScript value produced by JSON.parse (or built by the handler). -/
inductive JSVal where
  | null : JSVal
  | bool : Bool → JSVal
  | num : ℚ → Bool → JSVal
  | str : String → JSVal
  | arr : List JSVal → JSVal
  | obj : List (String × JSVal) → JSVal
  deriving Repr

/-- Property read on an object's own-property list; none models undefined. -/
def getF : List (String × JSVal) → String → Option JSVal
  | [], _ => none
  | (k, v) :: rest, key => if k = key then some v else getF rest key

/-- Property write: update an existing key in place, else append (JS object
assignment semantics preserve insertion order). -/
def setF : List (String × JSVal) → String → JSVal → List (String × JSVal)
  | [], key, v => [(key, v)]
  | (k, w) :: rest, key, v =>
      if k = key then (key, v) :: rest else (k, w) :: setF rest key v

/-! ## The listing-suggest output hardener (src/server.js lines 334-381)

The handler parses the raw model output with JSON.parse inside a try/catch
that, on parse failure, substitutes a default object seeded from the caller's
requested currency and unit; the hardening statements then run on whatever
value `parsed` holds.  The file is an ES module, hence strict mode: reading a
property of null throws, and assigning a property to a primitive (number,
string, boolean) throws.  The first hardening statement reads and, for any
primitive, assigns `parsed.missingFields`, so a parse result that is neither
an object nor an array makes the block throw; `harden` returns none there. -/

/-- The literal array in the confidence check at src/server.js line 351. -/
def confidenceValues : List String := ["low", "medium", "high"]

/-- src/server.js line 349:
if (!Array.isArray(parsed.missingFields)) parsed.missingFields = []; -/
def stepMissingFields (fs : List (String × JSVal)) : List (String × JSVal) :=
  match getF fs "missingFields" with
  | some (JSVal.arr _) => fs
  | _ => setF fs "missingFields" (JSVal.arr [])

/-- src/server.js lines 351-353: coerce confidence to "low" unless it is
exactly one of the three enum strings (Array.prototype.includes uses strict
equality, so a non-string confidence never matches). -/
def stepConfidence (fs : List (String × JSVal)) : List (String × JSVal) :=
  match getF fs "confidence" with
  | some (JSVal.str c) =>
      if confidenceValues.contains c then fs
      else setF fs "confidence" (JSVal.str "low")
  | _ => setF fs "confidence" (JSVal.str "low")

/-- src/server.js lines 355-361: ps && typeof ps.value === "number" &&
Number.isFinite(ps.value) && typeof ps.currency === "string" &&
typeof ps.unit === "string".  Only an object can make all conjuncts true:
every primitive either is falsy or has undefined value/currency/unit. -/
def psOkCheck (fs : List (String × JSVal)) : Bool :=
  match getF fs "priceSuggestion" with
  | some (JSVal.obj ps) =>
      (match getF ps "value" with
       | some (JSVal.num _ fin) => fin
       | _ => false)
      && (match getF ps "currency" with
          | some (JSVal.str _) => true
          | _ => false)
      && (match getF ps "unit" with
          | some (JSVal.str _) => true
          | _ => false)
  | _ => false

/-- The replacement object { value: 0, currency, unit } built at
src/server.js line 364 (and in the parse-failure default at line 342). -/
def defaultPS (currency unit : String) : JSVal :=
  JSVal.obj [("value", JSVal.num 0 true), ("currency", JSVal.str currency),
             ("unit", JSVal.str unit)]

/-- parsed.missingFields.push(v): at every push site missingFields is already
an array (stepMissingFields ran first and nothing un-arrays it). -/
def pushMF (fs : List (String × JSVal)) (v : JSVal) : List (String × JSVal) :=
  match getF fs "missingFields" with
  | some (JSVal.arr xs) => setF fs "missingFields" (JSVal.arr (xs ++ [v]))
  | _ => fs

/-- src/server.js lines 363-367: wholesale replacement of an invalid
priceSuggestion, confidence forced low, unconditional push. -/
def stepPrice (fs : List (String × JSVal)) (currency unit : String) :
    List (String × JSVal) :=
  if psOkCheck fs then fs
  else
    pushMF
      (setF (setF fs "priceSuggestion" (defaultPS currency unit))
        "confidence" (JSVal.str "low"))
      (JSVal.str "Price suggestion incomplete")

/-- src/server.js lines 369-373: non-string description replaced by "",
confidence forced low, unconditional push. -/
def stepDescription (fs : List (String × JSVal)) : List (String × JSVal) :=
  match getF fs "description" with
  | some (JSVal.str _) => fs
  | _ =>
      pushMF
        (setF (setF fs "description" (JSVal.str ""))
          "confidence" (JSVal.str "low"))
        (JSVal.str "Description missing")

/-- Array.prototype.includes with a string argument: strict equality matches
only a string element with the same characters. -/
def jsIncludesStr (xs : List JSVal) (t : String) : Bool :=
  xs.any fun v =>
    match v with
    | JSVal.str s => s = t
    | _ => false

/-- JavaScript String.prototype.trim: strip whitespace from both ends.
Defined structurally over the character list so that it evaluates inside the
kernel (the JS whitespace set is approximated by Char.isWhitespace; none of
the string literals in play contain exotic whitespace).  String length is
the character count, which agrees with the JS code-unit length on the
basic-plane strings this server handles. -/
def jsTrim (s : String) : String :=
  String.mk
    (((s.data.dropWhile Char.isWhitespace).reverse.dropWhile
        Char.isWhitespace).reverse)

/-- The trimmed-description length threshold at src/server.js line 376
(the earlier revision in src/unnamed/part_001 line 363 uses 140). -/
def descThreshold : Nat := 120

/-- src/server.js lines 376-381: soft length check with a guarded push.
After stepDescription the description is always a string, so the wildcard
branch (where parsed.description.trim() would throw) is unreachable. -/
def stepLength (fs : List (String × JSVal)) : List (String × JSVal) :=
  match getF fs "description" with
  | some (JSVal.str s) =>
      if (jsTrim s).length < descThreshold then
        let fs' := setF fs "confidence" (JSVal.str "low")
        match getF fs' "missingFields" with
        | some (JSVal.arr xs) =>
            if jsIncludesStr xs "Description too short" then fs'
            else pushMF fs' (JSVal.str "Description too short")
        | _ => fs'
      else fs
  | _ => fs

/-- The hardening statements of src/server.js lines 349-381 applied to the
own-property list of the parsed object. -/
def hardenSteps (fs : List (String × JSVal)) (currency unit : String) :
    List (String × JSVal) :=
  stepLength (stepDescription (stepPrice (stepConfidence (stepMissingFields fs))
    currency unit))

/-- The default object substituted when JSON.parse throws
(src/server.js lines 340-345), in source order. -/
def fallbackFields (currency unit : String) : List (String × JSVal) :=
  [("description", JSVal.str ""),
   ("priceSuggestion", defaultPS currency unit),
   ("confidence", JSVal.str "low"),
   ("missingFields", JSVal.arr [JSVal.str "AI returned invalid JSON - try again"])]

/-- The whole hardening block.  The input is the outcome of JSON.parse on the
raw model output: none when parsing threw, some v when it yielded v.  The
result is the final own-property list of `parsed`, or none when the block
itself throws (strict-mode property access/assignment on null or a
primitive).  For an array parse the string-keyed properties start empty and
the block proceeds exactly as for an object. -/
def harden (parseResult : Option JSVal) (currency unit : String) :
    Option (List (String × JSVal)) :=
  match parseResult with
  | none => some (hardenSteps (fallbackFields currency unit) currency unit)
  | some (JSVal.obj fs) => some (hardenSteps fs currency unit)
  | some (JSVal.arr _) => some (hardenSteps [] currency unit)
  | some _ => none

/-! ## Schema validity

These predicates state, over the own-property list of a hardened object, the
Suggestion Result contract of spec section 3: string description, well-typed
priceSuggestion (finite numeric value, string currency and unit — exactly the
source's psOk check), confidence in the three-value enum, missingFields an
array. -/

def descValid (fs : List (String × JSVal)) : Bool :=
  match getF fs "description" with
  | some (JSVal.str _) => true
  | _ => false

def confValid (fs : List (String × JSVal)) : Bool :=
  match getF fs "confidence" with
  | some (JSVal.str c) => confidenceValues.contains c
  | _ => false

def mfValid (fs : List (String × JSVal)) : Bool :=
  match getF fs "missingFields" with
  | some (JSVal.arr _) => true
  | _ => false

def schemaValid (fs : List (String × JSVal)) : Bool :=
  descValid fs && psOkCheck fs && confValid fs && mfValid fs

/-- The elements of the missingFields array (empty list if not an array). -/
def mfOf (fs : List (String × JSVal)) : List JSVal :=
  match getF fs "missingFields" with
  | some (JSVal.arr xs) => xs
  | _ => []

/-- Occurrences of a given string among the elements of a JS array
(strict-equality matches only). -/
def countStr : List JSVal → String → Nat
  | [], _ => 0
  | JSVal.str s :: rest, t => (if s = t then 1 else 0) + countStr rest t
  | _ :: rest, t => countStr rest t

/-- Parse results on which the hardening block runs to completion: parse
failure (the catch substitutes the fallback object) and parses yielding an
object or an array.  On null the first property read throws; on a number,
string or boolean the first property assignment throws (strict mode). -/
def hardenProceeds : Option JSVal → Bool
  | none => true
  | some (JSVal.obj _) => true
  | some (JSVal.arr _) => true
  | some _ => false

/-- A 150-character description, comfortably above the 120 threshold. -/
def longDesc : String := String.mk (List.replicate 150 'x')

/-- A parsed output that passes every hardening check with confidence
"high". -/
def goodFields : List (String × JSVal) :=
  [("description", JSVal.str longDesc),
   ("priceSuggestion", JSVal.obj
     [("value", JSVal.num 120 true), ("currency", JSVal.str "PLN"),
      ("unit", JSVal.str "t")]),
   ("confidence", JSVal.str "high"),
   ("missingFields", JSVal.arr [])]

/-- A parsed output whose missingFields already reports the price problem and
whose priceSuggestion is absent. -/
def dupPriceInput : List (String × JSVal) :=
  [("missingFields", JSVal.arr [JSVal.str "Price suggestion incomplete"])]

/-! ## Claim C5: mode selection (src/server.js lines 250-251)

const userDescription = String(notes || "").trim();
const hasUserText = userDescription.length >= 10;
(the earlier revision in src/unnamed/part_001 line 252 uses 20) -/

/-- Generation mode: REWRITE polishes user free text, CREATE composes from
facts alone (hasUserText selects between the two prompt pairs). -/
inductive Mode where
  | CREATE : Mode
  | REWRITE : Mode
  deriving Repr, DecidableEq

/-- The minimum-content threshold of src/server.js line 251. -/
def modeThreshold : Nat := 10

/-- hasUserText as a mode selector: trim the notes, REWRITE iff the trimmed
length reaches the threshold. -/
def selectMode (notes : String) : Mode :=
  if modeThreshold ≤ (jsTrim notes).length then Mode.REWRITE else Mode.CREATE

/-! ## Claim C6: idempotent ingestion (src/server.js lines 121-155)

The store is modelled by the two tables the handler touches: the ingested
event ledger (event ids in insertion order; event_id is its primary key) and
the user-profile table (user id to JSON payload, upsert semantics).  A
request carries the optional eventId and user.id (none when absent; the
empty string is also falsy in JS and fails the 400 guard) plus the user
payload. -/

structure SyncRequest where
  eventId : Option String
  userId : Option String
  payload : JSVal

structure DBState where
  ingested : List String
  users : List (String × JSVal)

inductive SyncResponse where
  | badRequest : SyncResponse
  | skipped : SyncResponse
  | success : SyncResponse
  deriving Repr, DecidableEq

/-- INSERT ... ON CONFLICT (user_id) DO UPDATE SET payload (lines 138-144):
same update-or-append behaviour as a JS property write. -/
def upsertUser (users : List (String × JSVal)) (uid : String) (payload : JSVal) :
    List (String × JSVal) :=
  setF users uid payload

/-- The /sync/user handler: 400 guard, dedup SELECT on the ledger, profile
upsert, ledger insert. -/
def syncUser (st : DBState) (r : SyncRequest) : DBState × SyncResponse :=
  match r.eventId, r.userId with
  | some e, some uid =>
      if e = "" ∨ uid = "" then (st, SyncResponse.badRequest)
      else if e ∈ st.ingested then (st, SyncResponse.skipped)
      else (⟨st.ingested ++ [e], upsertUser st.users uid r.payload⟩,
            SyncResponse.success)
  | _, _ => (st, SyncResponse.badRequest)

/-- Run a sequence of /sync/user requests. -/
def runSync (st : DBState) (rs : List SyncRequest) : DBState :=
  rs.foldl (fun s r => (syncUser s r).1) st

/-! ## The /agent/listing-suggest handler (src/server.js lines 232-404)

The collaborators are modelled as inputs: parseResult is the outcome of
JSON.parse on the provider's raw output (reached only after the provider
call), and insertOutcome the outcome of the ai_interactions INSERT at lines
383-394 (error when the query throws — note initTables at lines 68-117 never
creates that table — otherwise the optional RETURNING id).  The effect trace
records, in order, the provider call and the insert attempt. -/

inductive Effect where
  | providerCall : Effect
  | interactionInsertAttempt : Effect
  deriving Repr, DecidableEq

inductive SuggestResponse where
  | unauthorized : SuggestResponse
  | badRequest : SuggestResponse
  | serverError : SuggestResponse
  | ok : List (String × JSVal) → SuggestResponse
  deriving Repr

/-- src/server.js lines 58-64: pass only when the x-pg-secret header is
present, truthy, and equal to the configured secret. -/
def verifySecret (header : Option String) (secret : String) : Bool :=
  match header with
  | none => false
  | some h => !(h == "") && h == secret

/-- Object spread: fold the source's properties into the base with JS
assignment semantics, so source keys override base keys and keep their own
order otherwise. -/
def spreadInto (base src : List (String × JSVal)) : List (String × JSVal) :=
  src.foldl (fun acc p => setF acc p.1 p.2) base

/-- res.json({ success: true, interactionId, ...parsed }) at line 399.  A
JSON body omits a property whose value is undefined, so an absent insert id
contributes no interactionId property. -/
def suggestResponseBody (idOpt : Option Nat) (parsed : List (String × JSVal)) :
    List (String × JSVal) :=
  spreadInto
    (("success", JSVal.bool true) ::
      (match idOpt with
       | some i => [("interactionId", JSVal.num (i : ℚ) true)]
       | none => []))
    parsed

/-- The handler: secret middleware, category/commodity 400 guard, provider
call, hardening, interaction insert, response.  Any throw after the guards
(hardening TypeError or insert failure) lands in the outer catch as a 500. -/
def listingSuggest (header : Option String) (secret : String)
    (category commodity : Option String) (currency unit : String)
    (parseResult : Option JSVal) (insertOutcome : Except Unit (Option Nat)) :
    SuggestResponse × List Effect :=
  if !(verifySecret header secret) then (SuggestResponse.unauthorized, [])
  else
    match category, commodity with
    | some c, some m =>
        if c = "" ∨ m = "" then (SuggestResponse.badRequest, [])
        else
          match harden parseResult currency unit with
          | none => (SuggestResponse.serverError, [Effect.providerCall])
          | some parsed =>
              match insertOutcome with
              | Except.error _ =>
                  (SuggestResponse.serverError,
                   [Effect.providerCall, Effect.interactionInsertAttempt])
              | Except.ok idOpt =>
                  (SuggestResponse.ok (suggestResponseBody idOpt parsed),
                   [Effect.providerCall, Effect.interactionInsertAttempt])
    | _, _ => (SuggestResponse.badRequest, [])

/-! ## Claim C10: user-chat confidence is a hard-coded constant

src/server.js lines 159-209: the handler validates userId/message, reads the
user's listing and transaction counts, folds them with the message into the
prompt (lines 177-186), calls the provider, and answers
{ response, confidence: "high" } (lines 201-204).  The earlier revision in
src/unnamed/part_000 lines 351-429 answers { response, confidence: "medium",
cards: [], suggestions: [...] }.  The counts and message reach only the
prompt; the reply string is whatever the provider returns for it. -/

inductive ChatResponse where
  | badRequest : ChatResponse
  | ok : List (String × JSVal) → ChatResponse
  deriving Repr

/-- The prompt context of src/server.js lines 177-186 — the only place the
counts and the message flow. -/
def chatContext (listingCount txCount : Nat) (message : String) : String :=
  "You are PlainGrain AI assistant.\n\nUser statistics:\nListings: "
    ++ toString listingCount ++ "\nTransactions: " ++ toString txCount
    ++ "\n\nUser message:\n" ++ message

/-- The /agent/user-chat handler of src/server.js, with the provider reply
for the compiled prompt supplied as input. -/
def userChat (userId message : Option String) (listingCount txCount : Nat)
    (reply : String) : ChatResponse :=
  match userId, message with
  | some uid, some m =>
      if uid = "" ∨ m = "" then ChatResponse.badRequest
      else ChatResponse.ok
        [("response", JSVal.str reply), ("confidence", JSVal.str "high")]
  | _, _ => ChatResponse.badRequest

/-- The /agent/user-chat handler of the revision in src/unnamed/part_000
lines 351-429 (message?.trim() guard, confidence "medium", placeholder
cards/suggestions). -/
def userChatV2 (userId message : Option String) (listingCount txCount : Nat)
    (reply : String) : ChatResponse :=
  match userId, message with
  | some uid, some m =>
      if uid = "" ∨ jsTrim m = "" then ChatResponse.badRequest
      else ChatResponse.ok
        [("response", JSVal.str reply),
         ("confidence", JSVal.str "medium"),
         ("cards", JSVal.arr []),
         ("suggestions", JSVal.arr
           [JSVal.str "Show my best buyers",
            JSVal.str "Which listings should I improve?",
            JSVal.str "Help me write a better listing description",
            JSVal.str "Suggest a price range for my wheat listing"])]
  | _, _ => ChatResponse.badRequest

/-! ## Elementary lemmas about the steps -/

@[simp] theorem getF_nil (key : String) : getF [] key = none := rfl

theorem getF_cons (k : String) (v : JSVal) (rest : List (String × JSVal)) (key : String) :
    getF ((k, v) :: rest) key = if k = key then some v else getF rest key := rfl

theorem getF_setF_self (fs : List (String × JSVal)) (k : String) (v : JSVal) :
    getF (setF fs k v) k = some v := by
  induction fs with
  | nil => simp [setF, getF]
  | cons p rest ih =>
      obtain ⟨k', w⟩ := p
      by_cases h : k' = k
      · simp [setF, getF, h]
      · simp [setF, getF, h, ih]

theorem getF_setF_ne (fs : List (String × JSVal)) (k key : String) (v : JSVal)
    (h : key ≠ k) : getF (setF fs k v) key = getF fs key := by
  induction fs with
  | nil => simp [setF, getF, Ne.symm h]
  | cons p rest ih =>
      obtain ⟨k', w⟩ := p
      by_cases hk : k' = k
      · subst hk
        simp [setF, getF, Ne.symm h]
      · by_cases hkey : k' = key
        · simp [setF, getF, hk, hkey, h]
        · simp [setF, getF, hk, hkey, ih]

theorem descValid_ext {fs fs' : List (String × JSVal)}
    (h : getF fs' "description" = getF fs "description") :
    descValid fs' = descValid fs := by
  unfold descValid; rw [h]

theorem confValid_ext {fs fs' : List (String × JSVal)}
    (h : getF fs' "confidence" = getF fs "confidence") :
    confValid fs' = confValid fs := by
  unfold confValid; rw [h]

theorem mfValid_ext {fs fs' : List (String × JSVal)}
    (h : getF fs' "missingFields" = getF fs "missingFields") :
    mfValid fs' = mfValid fs := by
  unfold mfValid; rw [h]

theorem psOkCheck_ext {fs fs' : List (String × JSVal)}
    (h : getF fs' "priceSuggestion" = getF fs "priceSuggestion") :
    psOkCheck fs' = psOkCheck fs := by
  unfold psOkCheck; rw [h]

theorem mfOf_ext {fs fs' : List (String × JSVal)}
    (h : getF fs' "missingFields" = getF fs "missingFields") :
    mfOf fs' = mfOf fs := by
  unfold mfOf; rw [h]

/-- stepMissingFields only writes the missingFields key. -/
theorem getF_stepMissingFields_ne (fs : List (String × JSVal)) (key : String)
    (h : key ≠ "missingFields") :
    getF (stepMissingFields fs) key = getF fs key := by
  unfold stepMissingFields
  cases hm : getF fs "missingFields" with
  | none => exact getF_setF_ne fs _ key _ h
  | some v =>
      cases v <;> first
        | rfl
        | exact getF_setF_ne fs _ key _ h

theorem mfValid_stepMissingFields (fs : List (String × JSVal)) :
    mfValid (stepMissingFields fs) = true := by
  unfold stepMissingFields mfValid
  cases hm : getF fs "missingFields" with
  | none => rw [getF_setF_self]
  | some v =>
      cases v <;> simp only [hm] <;> first
        | rfl
        | rw [getF_setF_self]

/-- stepConfidence only writes the confidence key. -/
theorem getF_stepConfidence_ne (fs : List (String × JSVal)) (key : String)
    (h : key ≠ "confidence") :
    getF (stepConfidence fs) key = getF fs key := by
  cases hm : getF fs "confidence" with
  | none => simp [stepConfidence, hm, getF_setF_ne fs _ key _ h]
  | some v =>
      cases v <;> simp [stepConfidence, hm, getF_setF_ne fs _ key _ h] <;>
        split_ifs <;> simp [getF_setF_ne fs _ key _ h]

theorem confValid_stepConfidence (fs : List (String × JSVal)) :
    confValid (stepConfidence fs) = true := by
  cases hm : getF fs "confidence" with
  | none => simp [stepConfidence, confValid, hm, getF_setF_self, confidenceValues]
  | some v =>
      cases v <;>
        simp [stepConfidence, confValid, hm, getF_setF_self, confidenceValues] <;>
        (rename_i c
         by_cases hc : c = "low" ∨ c = "medium" ∨ c = "high" <;>
          simp [hc, hm, getF_setF_self])

/-- stepConfidence is the identity when the supplied confidence is valid. -/
theorem stepConfidence_id {fs : List (String × JSVal)}
    (h : confValid fs = true) : stepConfidence fs = fs := by
  cases hm : getF fs "confidence" with
  | none => simp [confValid, hm] at h
  | some v =>
      cases v <;> simp [confValid, hm] at h <;>
        simp [stepConfidence, hm, h]

/-- pushMF only writes the missingFields key. -/
theorem getF_pushMF_ne (fs : List (String × JSVal)) (v : JSVal) (key : String)
    (h : key ≠ "missingFields") :
    getF (pushMF fs v) key = getF fs key := by
  cases hm : getF fs "missingFields" with
  | none => simp [pushMF, hm]
  | some w =>
      cases w <;> simp [pushMF, hm, getF_setF_ne fs _ key _ h]

theorem mfValid_pushMF {fs : List (String × JSVal)} (v : JSVal)
    (h : mfValid fs = true) : mfValid (pushMF fs v) = true := by
  cases hm : getF fs "missingFields" with
  | none => simp [mfValid, hm] at h
  | some w =>
      cases w <;> simp [mfValid, hm] at h <;>
        simp [pushMF, mfValid, hm, getF_setF_self]

theorem mfOf_pushMF {fs : List (String × JSVal)} (v : JSVal)
    (h : mfValid fs = true) : mfOf (pushMF fs v) = mfOf fs ++ [v] := by
  cases hm : getF fs "missingFields" with
  | none => simp [mfValid, hm] at h
  | some w =>
      cases w <;> simp [mfValid, hm] at h <;>
        simp [pushMF, mfOf, hm, getF_setF_self]

/-- stepPrice is the identity when the supplied priceSuggestion is valid. -/
theorem stepPrice_id {fs : List (String × JSVal)} (currency unit : String)
    (h : psOkCheck fs = true) : stepPrice fs currency unit = fs := by
  simp [stepPrice, h]

/-- stepPrice only writes priceSuggestion, confidence and missingFields. -/
theorem getF_stepPrice_ne (fs : List (String × JSVal)) (currency unit key : String)
    (h1 : key ≠ "priceSuggestion") (h2 : key ≠ "confidence")
    (h3 : key ≠ "missingFields") :
    getF (stepPrice fs currency unit) key = getF fs key := by
  by_cases h : psOkCheck fs = true
  · simp [stepPrice, h]
  · simp only [stepPrice]
    rw [if_neg (by simp [h])]
    rw [getF_pushMF_ne _ _ _ h3, getF_setF_ne _ _ _ _ h2, getF_setF_ne _ _ _ _ h1]

/-- Any own-property list whose priceSuggestion is the default replacement
object passes the psOk check. -/
theorem psOkCheck_of_default {fs : List (String × JSVal)} (currency unit : String)
    (h : getF fs "priceSuggestion" = some (defaultPS currency unit)) :
    psOkCheck fs = true := by
  simp [psOkCheck, h, defaultPS, getF]

theorem psOkCheck_stepPrice (fs : List (String × JSVal)) (currency unit : String) :
    psOkCheck (stepPrice fs currency unit) = true := by
  by_cases h : psOkCheck fs = true
  · rwa [stepPrice_id currency unit h]
  · have hps : getF (stepPrice fs currency unit) "priceSuggestion"
        = some (defaultPS currency unit) := by
      simp only [stepPrice]
      rw [if_neg (by simp [h])]
      rw [getF_pushMF_ne _ _ _ (by decide), getF_setF_ne _ _ _ _ (by decide),
        getF_setF_self]
    exact psOkCheck_of_default currency unit hps

/-- In the repair branch, stepPrice forces confidence to "low". -/
theorem conf_stepPrice_bad {fs : List (String × JSVal)} (currency unit : String)
    (h : psOkCheck fs = false) :
    getF (stepPrice fs currency unit) "confidence" = some (JSVal.str "low") := by
  simp only [stepPrice]
  rw [if_neg (by simp [h])]
  rw [getF_pushMF_ne _ _ _ (by decide), getF_setF_self]

theorem confValid_stepPrice {fs : List (String × JSVal)} (currency unit : String)
    (h : confValid fs = true) :
    confValid (stepPrice fs currency unit) = true := by
  by_cases hps : psOkCheck fs = true
  · rwa [stepPrice_id currency unit hps]
  · have hbad := @conf_stepPrice_bad fs currency unit (by simpa using hps)
    simp [confValid, hbad, confidenceValues]

theorem mfValid_stepPrice {fs : List (String × JSVal)} (currency unit : String)
    (h : mfValid fs = true) :
    mfValid (stepPrice fs currency unit) = true := by
  by_cases hps : psOkCheck fs = true
  · rwa [stepPrice_id currency unit hps]
  · simp only [stepPrice]
    rw [if_neg (by simp [hps])]
    refine mfValid_pushMF _ ?_
    have hmid : getF (setF (setF fs "priceSuggestion" (defaultPS currency unit))
        "confidence" (JSVal.str "low")) "missingFields"
        = getF fs "missingFields" := by
      rw [getF_setF_ne _ _ _ _ (by decide), getF_setF_ne _ _ _ _ (by decide)]
    rw [mfValid_ext hmid]
    exact h

/-- What stepPrice appends to missingFields. -/
theorem mfOf_stepPrice {fs : List (String × JSVal)} (currency unit : String)
    (h : mfValid fs = true) :
    mfOf (stepPrice fs currency unit) = mfOf fs ∨
    mfOf (stepPrice fs currency unit)
      = mfOf fs ++ [JSVal.str "Price suggestion incomplete"] := by
  by_cases hps : psOkCheck fs = true
  · left; rw [stepPrice_id currency unit hps]
  · right
    simp only [stepPrice]
    rw [if_neg (by simp [hps])]
    have hmid : getF (setF (setF fs "priceSuggestion" (defaultPS currency unit))
        "confidence" (JSVal.str "low")) "missingFields" = getF fs "missingFields" := by
      rw [getF_setF_ne _ _ _ _ (by decide), getF_setF_ne _ _ _ _ (by decide)]
    rw [mfOf_pushMF _ (by rw [mfValid_ext hmid]; exact h), mfOf_ext hmid]

/-- stepDescription is the identity when the description is a string. -/
theorem stepDescription_id {fs : List (String × JSVal)}
    (h : descValid fs = true) : stepDescription fs = fs := by
  cases hm : getF fs "description" with
  | none => simp [descValid, hm] at h
  | some v =>
      cases v <;> simp [descValid, hm] at h <;> simp [stepDescription, hm]

/-- stepDescription only writes description, confidence and missingFields. -/
theorem getF_stepDescription_ne (fs : List (String × JSVal)) (key : String)
    (h1 : key ≠ "description") (h2 : key ≠ "confidence")
    (h3 : key ≠ "missingFields") :
    getF (stepDescription fs) key = getF fs key := by
  cases hm : getF fs "description" with
  | none =>
      simp only [stepDescription, hm]
      rw [getF_pushMF_ne _ _ _ h3, getF_setF_ne _ _ _ _ h2, getF_setF_ne _ _ _ _ h1]
  | some v =>
      cases v <;> simp only [stepDescription, hm] <;>
        first
          | rfl
          | rw [getF_pushMF_ne _ _ _ h3, getF_setF_ne _ _ _ _ h2,
              getF_setF_ne _ _ _ _ h1]

theorem descValid_stepDescription (fs : List (String × JSVal)) :
    descValid (stepDescription fs) = true := by
  cases hm : getF fs "description" with
  | none =>
      simp only [stepDescription, hm, descValid]
      rw [getF_pushMF_ne _ _ _ (by decide), getF_setF_ne _ _ _ _ (by decide),
        getF_setF_self]
  | some v =>
      cases v <;> simp only [stepDescription, hm, descValid] <;>
        first
          | simp [hm]
          | (rw [getF_pushMF_ne _ _ _ (by decide), getF_setF_ne _ _ _ _ (by decide),
              getF_setF_self])

/-- In the repair branch, stepDescription forces confidence to "low". -/
theorem conf_stepDescription_bad {fs : List (String × JSVal)}
    (h : descValid fs = false) :
    getF (stepDescription fs) "confidence" = some (JSVal.str "low") := by
  cases hm : getF fs "description" with
  | none =>
      simp only [stepDescription, hm]
      rw [getF_pushMF_ne _ _ _ (by decide), getF_setF_self]
  | some v =>
      cases v <;> simp [descValid, hm] at h <;>
        (simp only [stepDescription, hm]
         rw [getF_pushMF_ne _ _ _ (by decide), getF_setF_self])

theorem confValid_stepDescription {fs : List (String × JSVal)}
    (h : confValid fs = true) : confValid (stepDescription fs) = true := by
  by_cases hd : descValid fs = true
  · rwa [stepDescription_id hd]
  · have hbad := @conf_stepDescription_bad fs (by simpa using hd)
    simp [confValid, hbad, confidenceValues]

theorem mfValid_stepDescription {fs : List (String × JSVal)}
    (h : mfValid fs = true) : mfValid (stepDescription fs) = true := by
  by_cases hd : descValid fs = true
  · rwa [stepDescription_id hd]
  · have hne : getF (stepDescription fs) "missingFields"
        = getF (pushMF (setF (setF fs "description" (JSVal.str ""))
            "confidence" (JSVal.str "low")) (JSVal.str "Description missing"))
            "missingFields" := by
      cases hm : getF fs "description" with
      | none => simp only [stepDescription, hm]
      | some v =>
          cases v <;> simp [descValid, hm] at hd <;> simp only [stepDescription, hm]
    rw [mfValid_ext hne]
    refine mfValid_pushMF _ ?_
    have hmid : getF (setF (setF fs "description" (JSVal.str ""))
        "confidence" (JSVal.str "low")) "missingFields"
        = getF fs "missingFields" := by
      rw [getF_setF_ne _ _ _ _ (by decide), getF_setF_ne _ _ _ _ (by decide)]
    rw [mfValid_ext hmid]
    exact h

theorem psOkCheck_stepDescription (fs : List (String × JSVal)) :
    psOkCheck (stepDescription fs) = psOkCheck fs := by
  refine psOkCheck_ext ?_
  exact getF_stepDescription_ne fs _ (by decide) (by decide) (by decide)

/-- stepLength is the identity when the description is long enough. -/
theorem stepLength_id {fs : List (String × JSVal)} {s : String}
    (hm : getF fs "description" = some (JSVal.str s))
    (hlen : ¬ (jsTrim s).length < descThreshold) : stepLength fs = fs := by
  simp [stepLength, hm, hlen]

/-- stepLength only writes confidence and missingFields. -/
theorem getF_stepLength_ne (fs : List (String × JSVal)) (key : String)
    (h2 : key ≠ "confidence") (h3 : key ≠ "missingFields") :
    getF (stepLength fs) key = getF fs key := by
  cases hm : getF fs "description" with
  | none => simp [stepLength, hm]
  | some v =>
      cases v <;> simp only [stepLength, hm] <;> try rfl
      rename_i s
      by_cases hlen : (jsTrim s).length < descThreshold
      · rw [if_pos hlen]
        have hmf : getF (setF fs "confidence" (JSVal.str "low")) "missingFields"
            = getF fs "missingFields" := getF_setF_ne _ _ _ _ (by decide)
        cases hmf2 : getF (setF fs "confidence" (JSVal.str "low")) "missingFields" with
        | none => simp only []; rw [getF_setF_ne _ _ _ _ h2]
        | some w =>
            cases w <;> simp only [] <;>
              first
                | rw [getF_setF_ne _ _ _ _ h2]
                | (split_ifs <;>
                    first
                      | rw [getF_setF_ne _ _ _ _ h2]
                      | rw [getF_pushMF_ne _ _ _ h3, getF_setF_ne _ _ _ _ h2])
      · rw [if_neg hlen]

theorem descValid_stepLength (fs : List (String × JSVal)) :
    descValid (stepLength fs) = descValid fs :=
  descValid_ext (getF_stepLength_ne fs _ (by decide) (by decide))

theorem psOkCheck_stepLength (fs : List (String × JSVal)) :
    psOkCheck (stepLength fs) = psOkCheck fs :=
  psOkCheck_ext (getF_stepLength_ne fs _ (by decide) (by decide))

/-- In the short-description branch, stepLength forces confidence to "low". -/
theorem conf_stepLength_short {fs : List (String × JSVal)} {s : String}
    (hm : getF fs "description" = some (JSVal.str s))
    (hlen : (jsTrim s).length < descThreshold) :
    getF (stepLength fs) "confidence" = some (JSVal.str "low") := by
  simp only [stepLength, hm]
  rw [if_pos hlen]
  cases hmf2 : getF (setF fs "confidence" (JSVal.str "low")) "missingFields" with
  | none => simp only []; rw [getF_setF_self]
  | some w =>
      cases w <;> simp only [] <;>
        first
          | rw [getF_setF_self]
          | (split_ifs <;>
              first
                | rw [getF_setF_self]
                | rw [getF_pushMF_ne _ _ _ (by decide), getF_setF_self])

theorem confValid_stepLength {fs : List (String × JSVal)}
    (h : confValid fs = true) : confValid (stepLength fs) = true := by
  cases hm : getF fs "description" with
  | none => simpa [stepLength, hm] using h
  | some v =>
      cases v <;> first
        | (simpa [stepLength, hm] using h)
        | (rename_i s
           by_cases hlen : (jsTrim s).length < descThreshold
           · have := conf_stepLength_short hm hlen
             simp [confValid, this, confidenceValues]
           · rwa [stepLength_id hm hlen])

theorem mfValid_stepLength {fs : List (String × JSVal)}
    (h : mfValid fs = true) : mfValid (stepLength fs) = true := by
  cases hm : getF fs "description" with
  | none => simpa [stepLength, hm] using h
  | some v =>
      cases v
      case str s =>
        by_cases hlen : (jsTrim s).length < descThreshold
        · simp only [stepLength, hm]
          rw [if_pos hlen]
          have hmf : getF (setF fs "confidence" (JSVal.str "low")) "missingFields"
              = getF fs "missingFields" := getF_setF_ne _ _ _ _ (by decide)
          have hmv : mfValid (setF fs "confidence" (JSVal.str "low")) = true := by
            rw [mfValid_ext hmf]; exact h
          cases hmf2 : getF (setF fs "confidence" (JSVal.str "low"))
              "missingFields" with
          | none => simp [mfValid, hmf2] at hmv
          | some w =>
              cases w with
              | arr xs =>
                  simp only []
                  split_ifs
                  · exact hmv
                  · exact mfValid_pushMF _ hmv
              | null => simp [mfValid, hmf2] at hmv
              | bool b => simp [mfValid, hmf2] at hmv
              | num q f => simp [mfValid, hmf2] at hmv
              | str t => simp [mfValid, hmf2] at hmv
              | obj o => simp [mfValid, hmf2] at hmv
        · rwa [stepLength_id hm hlen]
      all_goals simpa [stepLength, hm] using h

/-- When the supplied confidence is not a valid enum string, stepConfidence
writes "low". -/
theorem conf_stepConfidence_bad {fs : List (String × JSVal)}
    (h : confValid fs = false) :
    getF (stepConfidence fs) "confidence" = some (JSVal.str "low") := by
  cases hm : getF fs "confidence" with
  | none => simp [stepConfidence, hm, getF_setF_self]
  | some v =>
      cases v with
      | str c =>
          simp [confValid, hm] at h
          simp [stepConfidence, hm, h, getF_setF_self]
      | null => simp [stepConfidence, hm, getF_setF_self]
      | bool b => simp [stepConfidence, hm, getF_setF_self]
      | num q f => simp [stepConfidence, hm, getF_setF_self]
      | arr xs => simp [stepConfidence, hm, getF_setF_self]
      | obj o => simp [stepConfidence, hm, getF_setF_self]

/-- Totality of the hardening statements: whatever own-property list the
parsed object starts with, after the block every Suggestion Result field is
present and type-correct. -/
theorem schemaValid_hardenSteps (fs : List (String × JSVal)) (currency unit : String) :
    schemaValid (hardenSteps fs currency unit) = true := by
  have h1mf : mfValid (stepMissingFields fs) = true := mfValid_stepMissingFields fs
  have h2mf : mfValid (stepConfidence (stepMissingFields fs)) = true := by
    rw [mfValid_ext (getF_stepConfidence_ne _ _ (by decide))]; exact h1mf
  have h2cf : confValid (stepConfidence (stepMissingFields fs)) = true :=
    confValid_stepConfidence _
  have h3mf := mfValid_stepPrice currency unit h2mf
  have h3cf := confValid_stepPrice currency unit h2cf
  have h3ps := psOkCheck_stepPrice (stepConfidence (stepMissingFields fs))
    currency unit
  have h4mf := mfValid_stepDescription h3mf
  have h4cf := confValid_stepDescription h3cf
  have h4ps : psOkCheck (stepDescription (stepPrice (stepConfidence
      (stepMissingFields fs)) currency unit)) = true := by
    rw [psOkCheck_stepDescription]; exact h3ps
  have h4d := descValid_stepDescription (stepPrice (stepConfidence
    (stepMissingFields fs)) currency unit)
  have h5mf := mfValid_stepLength h4mf
  have h5cf := confValid_stepLength h4cf
  have h5ps : psOkCheck (stepLength (stepDescription (stepPrice (stepConfidence
      (stepMissingFields fs)) currency unit))) = true := by
    rw [psOkCheck_stepLength]; exact h4ps
  have h5d : descValid (stepLength (stepDescription (stepPrice (stepConfidence
      (stepMissingFields fs)) currency unit))) = true := by
    rw [descValid_stepLength]; exact h4d
  simp [schemaValid, hardenSteps, h5mf, h5cf, h5ps, h5d]

/-- If the hardened confidence is anything other than "low", then the parsed
output already carried that exact confidence and every downstream check
(price shape, description type, trimmed length) passed. -/
theorem conf_hardenSteps_highmed (fs : List (String × JSVal))
    (currency unit s : String)
    (hs : getF (hardenSteps fs currency unit) "confidence" = some (JSVal.str s))
    (hne : s ≠ "low") :
    getF fs "confidence" = some (JSVal.str s) ∧ psOkCheck fs = true ∧
    ∃ d, getF fs "description" = some (JSVal.str d) ∧
      descThreshold ≤ (jsTrim d).length := by
  have hH : hardenSteps fs currency unit
      = stepLength (stepDescription (stepPrice (stepConfidence
          (stepMissingFields fs)) currency unit)) := rfl
  rw [hH] at hs
  have hd4 : descValid (stepDescription (stepPrice (stepConfidence
      (stepMissingFields fs)) currency unit)) = true := descValid_stepDescription _
  obtain ⟨d, hd⟩ : ∃ d, getF (stepDescription (stepPrice (stepConfidence
      (stepMissingFields fs)) currency unit)) "description"
        = some (JSVal.str d) := by
    cases hx : getF (stepDescription (stepPrice (stepConfidence
        (stepMissingFields fs)) currency unit)) "description" with
    | none => simp [descValid, hx] at hd4
    | some w =>
        cases w with
        | str t => exact ⟨t, rfl⟩
        | null => simp [descValid, hx] at hd4
        | bool b => simp [descValid, hx] at hd4
        | num q f => simp [descValid, hx] at hd4
        | arr xs => simp [descValid, hx] at hd4
        | obj o => simp [descValid, hx] at hd4
  by_cases hlen : (jsTrim d).length < descThreshold
  · rw [conf_stepLength_short hd hlen] at hs
    exact absurd (by injection hs with h; injection h with h; exact h.symm) hne
  · rw [stepLength_id hd hlen] at hs
    by_cases hdv : descValid (stepPrice (stepConfidence (stepMissingFields fs))
        currency unit) = true
    · rw [stepDescription_id hdv] at hs hd
      by_cases hps : psOkCheck (stepConfidence (stepMissingFields fs)) = true
      · rw [stepPrice_id currency unit hps] at hs hd
        by_cases hcv : confValid (stepMissingFields fs) = true
        · rw [stepConfidence_id hcv] at hs hd hps
          rw [getF_stepMissingFields_ne fs _ (by decide)] at hs hd
          rw [psOkCheck_ext (getF_stepMissingFields_ne fs _ (by decide))] at hps
          exact ⟨hs, hps, d, hd, not_lt.mp hlen⟩
        · rw [conf_stepConfidence_bad (by simpa using hcv)] at hs
          exact absurd (by injection hs with h; injection h with h; exact h.symm) hne
      · rw [conf_stepPrice_bad currency unit (by simpa using hps)] at hs
        exact absurd (by injection hs with h; injection h with h; exact h.symm) hne
    · rw [conf_stepDescription_bad (by simpa using hdv)] at hs
      exact absurd (by injection hs with h; injection h with h; exact h.symm) hne

/-- stepMissingFields is the identity when missingFields is already an array. -/
theorem stepMissingFields_id {fs : List (String × JSVal)} {xs : List JSVal}
    (h : getF fs "missingFields" = some (JSVal.arr xs)) :
    stepMissingFields fs = fs := by
  simp [stepMissingFields, h]

/-- What stepDescription appends to missingFields. -/
theorem mfOf_stepDescription {fs : List (String × JSVal)}
    (h : mfValid fs = true) :
    mfOf (stepDescription fs) = mfOf fs ∨
    mfOf (stepDescription fs) = mfOf fs ++ [JSVal.str "Description missing"] := by
  by_cases hd : descValid fs = true
  · left; rw [stepDescription_id hd]
  · right
    have hne : stepDescription fs
        = pushMF (setF (setF fs "description" (JSVal.str ""))
            "confidence" (JSVal.str "low")) (JSVal.str "Description missing") := by
      cases hm : getF fs "description" with
      | none => simp [stepDescription, hm]
      | some v =>
          cases v with
          | str t => simp [descValid, hm] at hd
          | null => simp [stepDescription, hm]
          | bool b => simp [stepDescription, hm]
          | num q f => simp [stepDescription, hm]
          | arr xs => simp [stepDescription, hm]
          | obj o => simp [stepDescription, hm]
    rw [hne]
    have hmid : getF (setF (setF fs "description" (JSVal.str ""))
        "confidence" (JSVal.str "low")) "missingFields"
        = getF fs "missingFields" := by
      rw [getF_setF_ne _ _ _ _ (by decide), getF_setF_ne _ _ _ _ (by decide)]
    rw [mfOf_pushMF _ (by rw [mfValid_ext hmid]; exact h), mfOf_ext hmid]

/-- stepLength does not touch missingFields when the guarded message is
already present. -/
theorem mfOf_stepLength_mem {fs : List (String × JSVal)}
    (h : mfValid fs = true)
    (hmem : jsIncludesStr (mfOf fs) "Description too short" = true) :
    mfOf (stepLength fs) = mfOf fs := by
  cases hm : getF fs "description" with
  | none => simp [stepLength, hm]
  | some v =>
      cases v with
      | str s =>
          by_cases hlen : (jsTrim s).length < descThreshold
          · simp only [stepLength, hm]
            rw [if_pos hlen]
            have hmf : getF (setF fs "confidence" (JSVal.str "low")) "missingFields"
                = getF fs "missingFields" := getF_setF_ne _ _ _ _ (by decide)
            cases hmf2 : getF (setF fs "confidence" (JSVal.str "low"))
                "missingFields" with
            | none =>
                rw [hmf] at hmf2; simp [mfValid, hmf2] at h
            | some w =>
                cases w with
                | arr xs =>
                    have hxs : mfOf fs = xs := by
                      rw [hmf] at hmf2; simp [mfOf, hmf2]
                    simp only []
                    rw [if_pos (show jsIncludesStr xs "Description too short" = true by
                      rw [← hxs]; exact hmem)]
                    exact mfOf_ext hmf
                | null => rw [hmf] at hmf2; simp [mfValid, hmf2] at h
                | bool b => rw [hmf] at hmf2; simp [mfValid, hmf2] at h
                | num q f => rw [hmf] at hmf2; simp [mfValid, hmf2] at h
                | str t => rw [hmf] at hmf2; simp [mfValid, hmf2] at h
                | obj o => rw [hmf] at hmf2; simp [mfValid, hmf2] at h
          · rw [stepLength_id hm hlen]
      | null => simp [stepLength, hm]
      | bool b => simp [stepLength, hm]
      | num q f => simp [stepLength, hm]
      | arr xs => simp [stepLength, hm]
      | obj o => simp [stepLength, hm]

theorem countStr_append (xs ys : List JSVal) (t : String) :
    countStr (xs ++ ys) t = countStr xs t + countStr ys t := by
  induction xs with
  | nil => simp [countStr]
  | cons x rest ih =>
      cases x <;> simp [countStr, ih] <;> omega

theorem countStr_append_single_ne (xs : List JSVal) {a t : String} (h : a ≠ t) :
    countStr (xs ++ [JSVal.str a]) t = countStr xs t := by
  rw [countStr_append]; simp [countStr, h]

theorem jsIncludesStr_append_left {xs : List JSVal} (ys : List JSVal) {t : String}
    (h : jsIncludesStr xs t = true) : jsIncludesStr (xs ++ ys) t = true := by
  simp only [jsIncludesStr, List.any_append, Bool.or_eq_true]
  exact Or.inl h

/-! ## Claim C1: totality of the hardening block -/

/-- C1 (amended): for every caller-supplied fallback currency/unit, the
hardening block terminates with a schema-valid result — string description,
priceSuggestion with finite numeric value and string currency/unit,
confidence in the low/medium/high enum, missingFields an array — exactly when
the raw output fails to parse or parses to a JSON object or array; when the
raw output parses to null, a boolean, a number or a string, the block throws
a TypeError (absorbed by the handler's outer catch as a 500), contrary to the
claim's inclusion of null, numbers and strings. -/
theorem hardener_totality_on_parseable_objects (pr : Option JSVal)
    (currency unit : String) :
    (∀ fs, harden pr currency unit = some fs → schemaValid fs = true) ∧
    (harden pr currency unit).isSome = hardenProceeds pr := by
  constructor
  · intro fs h
    cases pr with
    | none =>
        injection h with h
        rw [← h]; exact schemaValid_hardenSteps _ _ _
    | some v =>
        cases v with
        | null => exact absurd h (by simp [harden])
        | bool b => exact absurd h (by simp [harden])
        | num q f => exact absurd h (by simp [harden])
        | str s => exact absurd h (by simp [harden])
        | arr xs =>
            injection h with h
            rw [← h]; exact schemaValid_hardenSteps _ _ _
        | obj fields =>
            injection h with h
            rw [← h]; exact schemaValid_hardenSteps _ _ _
  · cases pr with
    | none => rfl
    | some v => cases v <;> rfl

/-- Witness for C1: the theorem applied to the parse-failure path with the
defaults of src/server.js (currency "PLN", unit "t"). -/
theorem hardener_totality_witness :
    schemaValid (hardenSteps (fallbackFields "PLN" "t") "PLN" "t") = true :=
  (hardener_totality_on_parseable_objects none "PLN" "t").1 _ rfl

/-- Counterexample to C1 as stated: when the raw output parses successfully to
the non-object JSON values null, 42 or "ok", the hardening block throws
instead of returning a result. -/
theorem hardener_throws_on_nonobject_parse :
    harden (some JSVal.null) "PLN" "t" = none ∧
    harden (some (JSVal.num 42 true)) "PLN" "t" = none ∧
    harden (some (JSVal.str "ok")) "PLN" "t" = none :=
  ⟨rfl, rfl, rfl⟩

/-! ## Claim C2: the parse-failure result -/

/-- C2 (amended): on JSON parse failure the fallback object is substituted,
but the hardening statements still run on it, so the soft length check on the
empty description also fires: the result is the fallback object with
"Description too short" appended after "AI returned invalid JSON - try
again", not the fallback object alone. -/
theorem parse_failure_result_with_length_diagnostic (currency unit : String) :
    harden none currency unit = some
      [("description", JSVal.str ""),
       ("priceSuggestion", defaultPS currency unit),
       ("confidence", JSVal.str "low"),
       ("missingFields", JSVal.arr
         [JSVal.str "AI returned invalid JSON - try again",
          JSVal.str "Description too short"])] := rfl

/-- Counterexample to C2 as stated: for fallback facts currency "EUR", unit
"kg", the hardened parse-failure result's missingFields is not exactly
["AI returned invalid JSON - try again"]: the later validation steps are not
skipped and "Description too short" is also appended. -/
theorem parse_failure_not_exactly_fallback :
    harden none "EUR" "kg" = some
      [("description", JSVal.str ""),
       ("priceSuggestion", defaultPS "EUR" "kg"),
       ("confidence", JSVal.str "low"),
       ("missingFields", JSVal.arr
         [JSVal.str "AI returned invalid JSON - try again",
          JSVal.str "Description too short"])] ∧
    mfOf (hardenSteps (fallbackFields "EUR" "kg") "EUR" "kg")
      ≠ [JSVal.str "AI returned invalid JSON - try again"] := by
  refine ⟨rfl, fun hcontra => ?_⟩
  exact absurd (congrArg List.length hcontra) (by decide)

/-! ## Claim C3: monotonic confidence downgrade -/

/-- C3: the hardened confidence is "high" or "medium" only when the raw
output parsed to an object that already carried that exact confidence, its
priceSuggestion passed the shape check, its description is a string, and the
trimmed description meets the length threshold; the hardener never raises
confidence above the supplied value. -/
theorem confidence_monotone_downgrade (pr : Option JSVal)
    (currency unit : String) (fs : List (String × JSVal)) (s : String)
    (hres : harden pr currency unit = some fs)
    (hconf : getF fs "confidence" = some (JSVal.str s))
    (hs : s = "high" ∨ s = "medium") :
    ∃ fields, pr = some (JSVal.obj fields) ∧
      getF fields "confidence" = some (JSVal.str s) ∧
      psOkCheck fields = true ∧
      ∃ d, getF fields "description" = some (JSVal.str d) ∧
        descThreshold ≤ (jsTrim d).length := by
  have hne : s ≠ "low" := by
    rcases hs with h | h <;> subst h <;> decide
  cases pr with
  | none =>
      injection hres with hres
      rw [← hres] at hconf
      have h1 := (conf_hardenSteps_highmed _ _ _ _ hconf hne).1
      rw [show getF (fallbackFields currency unit) "confidence"
          = some (JSVal.str "low") from rfl] at h1
      injection h1 with h1
      injection h1 with h1
      exact absurd h1.symm hne
  | some v =>
      cases v with
      | null => exact absurd hres (by simp [harden])
      | bool b => exact absurd hres (by simp [harden])
      | num q f => exact absurd hres (by simp [harden])
      | str t => exact absurd hres (by simp [harden])
      | arr xs =>
          injection hres with hres
          rw [← hres] at hconf
          have h1 := (conf_hardenSteps_highmed _ _ _ _ hconf hne).1
          exact absurd h1 (by simp [getF])
      | obj fields =>
          injection hres with hres
          rw [← hres] at hconf
          obtain ⟨h1, h2, d, h3, h4⟩ :=
            conf_hardenSteps_highmed _ _ _ _ hconf hne
          exact ⟨fields, rfl, h1, h2, d, h3, h4⟩

set_option maxRecDepth 20000 in
/-- Witness for C3: a fully valid parsed output keeps its "high" confidence,
and the theorem recovers all four passed checks from it. -/
theorem confidence_monotone_downgrade_witness :
    ∃ fields, (some (JSVal.obj goodFields) : Option JSVal)
        = some (JSVal.obj fields) ∧
      getF fields "confidence" = some (JSVal.str "high") ∧
      psOkCheck fields = true ∧
      ∃ d, getF fields "description" = some (JSVal.str d) ∧
        descThreshold ≤ (jsTrim d).length :=
  confidence_monotone_downgrade (some (JSVal.obj goodFields)) "PLN" "t"
    (hardenSteps goodFields "PLN" "t") "high" rfl (by rfl) (Or.inl rfl)

/-! ## Claim C4: idempotence of the missing-field appends -/

/-- Counterexample to C4 as stated: the push at src/server.js line 366 is not
guarded by an includes check, so when the parsed output's missingFields
already contains "Price suggestion incomplete" and the price suggestion is
invalid, the hardened result contains the identical message twice. -/
theorem price_message_push_duplicates :
    harden (some (JSVal.obj dupPriceInput)) "PLN" "t" = some
      [("missingFields", JSVal.arr
         [JSVal.str "Price suggestion incomplete",
          JSVal.str "Price suggestion incomplete",
          JSVal.str "Description missing",
          JSVal.str "Description too short"]),
       ("confidence", JSVal.str "low"),
       ("priceSuggestion", defaultPS "PLN" "t"),
       ("description", JSVal.str "")] ∧
    countStr (mfOf (hardenSteps dupPriceInput "PLN" "t"))
      "Price suggestion incomplete" = 2 :=
  ⟨rfl, rfl⟩

/-- C4 (amended): only the "Description too short" append is guarded by an
includes check and hence idempotent — if the parsed output's missingFields
array already contains that exact message, the hardener adds no further copy
of it (the "Price suggestion incomplete" and "Description missing" appends
are unconditional and can duplicate, as the counterexample shows). -/
theorem too_short_push_idempotent (fields : List (String × JSVal))
    (currency unit : String) (xs : List JSVal)
    (hmf : getF fields "missingFields" = some (JSVal.arr xs))
    (hmem : jsIncludesStr xs "Description too short" = true) :
    countStr (mfOf (hardenSteps fields currency unit)) "Description too short"
      = countStr xs "Description too short" := by
  have h0 : mfOf fields = xs := by simp [mfOf, hmf]
  have h0v : mfValid fields = true := by simp [mfValid, hmf]
  have hg1 : stepMissingFields fields = fields := stepMissingFields_id hmf
  have hg2mf : mfOf (stepConfidence fields) = xs := by
    rw [mfOf_ext (getF_stepConfidence_ne _ _ (by decide))]; exact h0
  have hg2v : mfValid (stepConfidence fields) = true := by
    rw [mfValid_ext (getF_stepConfidence_ne _ _ (by decide))]; exact h0v
  have hg3v : mfValid (stepPrice (stepConfidence fields) currency unit) = true :=
    mfValid_stepPrice currency unit hg2v
  have hg3 : countStr (mfOf (stepPrice (stepConfidence fields) currency unit))
        "Description too short" = countStr xs "Description too short" ∧
      jsIncludesStr (mfOf (stepPrice (stepConfidence fields) currency unit))
        "Description too short" = true := by
    obtain h | h := mfOf_stepPrice currency unit hg2v <;> rw [h, hg2mf]
    · exact ⟨rfl, hmem⟩
    · exact ⟨countStr_append_single_ne xs (by decide),
        jsIncludesStr_append_left _ hmem⟩
  have hg4v : mfValid (stepDescription (stepPrice (stepConfidence fields)
      currency unit)) = true := mfValid_stepDescription hg3v
  have hg4 : countStr (mfOf (stepDescription (stepPrice (stepConfidence fields)
        currency unit))) "Description too short"
        = countStr xs "Description too short" ∧
      jsIncludesStr (mfOf (stepDescription (stepPrice (stepConfidence fields)
        currency unit))) "Description too short" = true := by
    obtain h | h := mfOf_stepDescription hg3v <;> rw [h]
    · exact hg3
    · exact ⟨by rw [countStr_append_single_ne _ (by decide)]; exact hg3.1,
        jsIncludesStr_append_left _ hg3.2⟩
  have hg5 : mfOf (stepLength (stepDescription (stepPrice (stepConfidence fields)
      currency unit))) = mfOf (stepDescription (stepPrice (stepConfidence fields)
      currency unit)) := mfOf_stepLength_mem hg4v hg4.2
  show countStr (mfOf (stepLength (stepDescription (stepPrice (stepConfidence
      (stepMissingFields fields)) currency unit)))) "Description too short" = _
  rw [hg1, hg5]
  exact hg4.1

/-- Witness for C4: an input already carrying "Description too short" keeps a
single copy of it through the whole hardening block. -/
theorem too_short_push_idempotent_witness :
    countStr (mfOf (hardenSteps
        [("missingFields", JSVal.arr [JSVal.str "Description too short"])]
        "PLN" "t")) "Description too short"
      = countStr [JSVal.str "Description too short"] "Description too short" :=
  too_short_push_idempotent
    [("missingFields", JSVal.arr [JSVal.str "Description too short"])]
    "PLN" "t" [JSVal.str "Description too short"] rfl rfl

/-- C5: mode selection is a pure function of the notes: REWRITE iff the
trimmed length reaches the threshold (a constant within 10-20); trimmed
length exactly threshold-1 selects CREATE and exactly threshold selects
REWRITE. -/
theorem mode_selection_boundary :
    (10 ≤ modeThreshold ∧ modeThreshold ≤ 20) ∧
    (∀ notes, selectMode notes = Mode.REWRITE ↔
      modeThreshold ≤ (jsTrim notes).length) ∧
    (∀ notes, (jsTrim notes).length = modeThreshold - 1 →
      selectMode notes = Mode.CREATE) ∧
    (∀ notes, (jsTrim notes).length = modeThreshold →
      selectMode notes = Mode.REWRITE) := by
  refine ⟨⟨by decide, by decide⟩, fun notes => ?_, fun notes h => ?_, fun notes h => ?_⟩
  · unfold selectMode
    split_ifs with hle
    · simp [hle]
    · simp [hle]
  · unfold selectMode
    rw [if_neg (by unfold modeThreshold at h ⊢; omega)]
  · unfold selectMode
    rw [if_pos (by unfold modeThreshold at h ⊢; omega)]

/-- Witness for C5: a 9-character trimmed note selects CREATE, a 10-character
one selects REWRITE. -/
theorem mode_selection_boundary_witness :
    selectMode "abcdefghi" = Mode.CREATE ∧
    selectMode " abcdefghij " = Mode.REWRITE :=
  ⟨mode_selection_boundary.2.2.1 "abcdefghi" (by decide),
   mode_selection_boundary.2.2.2 " abcdefghij " (by decide)⟩

/-- A successful request leaves its eventId in the ledger. -/
theorem syncUser_success_mem {st : DBState} {r : SyncRequest} {e : String}
    (hsucc : (syncUser st r).2 = SyncResponse.success)
    (he : r.eventId = some e) :
    e ≠ "" ∧ e ∈ (syncUser st r).1.ingested := by
  cases hu : r.userId with
  | none => simp [syncUser, he, hu] at hsucc
  | some uid =>
      by_cases hguard : e = "" ∨ uid = ""
      · simp [syncUser, he, hu, hguard] at hsucc
      · by_cases hmem : e ∈ st.ingested
        · simp [syncUser, he, hu, hguard, hmem] at hsucc
        · refine ⟨fun hh => hguard (Or.inl hh), ?_⟩
          simp [syncUser, he, hu, hguard, hmem]

/-- Ledger membership is monotone across any request. -/
theorem syncUser_mem_mono (st : DBState) (r : SyncRequest) {e : String}
    (h : e ∈ st.ingested) : e ∈ (syncUser st r).1.ingested := by
  cases he : r.eventId with
  | none => simpa [syncUser, he] using h
  | some e' =>
      cases hu : r.userId with
      | none => simpa [syncUser, he, hu] using h
      | some uid =>
          by_cases hguard : e' = "" ∨ uid = ""
          · simpa [syncUser, he, hu, hguard] using h
          · by_cases hmem : e' ∈ st.ingested
            · simpa [syncUser, he, hu, hguard, hmem] using h
            · simp [syncUser, he, hu, hguard, hmem]
              exact Or.inl h

theorem runSync_mem_mono (rs : List SyncRequest) (st : DBState) {e : String}
    (h : e ∈ st.ingested) : e ∈ (runSync st rs).ingested := by
  induction rs generalizing st with
  | nil => simpa [runSync] using h
  | cons r rest ih =>
      simp only [runSync, List.foldl_cons]
      exact ih _ (syncUser_mem_mono st r h)

/-- A request whose eventId is already in the ledger changes nothing, and
answers skipped whenever it passes the 400 field guard. -/
theorem syncUser_dedup {st : DBState} {r : SyncRequest} {e : String}
    (hmem : e ∈ st.ingested) (he : r.eventId = some e) (hne : e ≠ "") :
    (syncUser st r).1 = st ∧
    (∀ uid, r.userId = some uid → uid ≠ "" →
      (syncUser st r).2 = SyncResponse.skipped) := by
  cases hu : r.userId with
  | none =>
      refine ⟨by simp [syncUser, he, hu], fun uid h _ => ?_⟩
      exact Option.noConfusion h
  | some uid =>
      by_cases hguard : e = "" ∨ uid = ""
      · rcases hguard with hg | hg
        · exact absurd hg hne
        · refine ⟨by simp [syncUser, he, hu, hg], fun uid' huid' hne' => ?_⟩
          injection huid' with huid'
          exact absurd (huid' ▸ hg) hne'
      · exact ⟨by simp [syncUser, he, hu, hguard, hmem],
          fun uid' huid' hne' => by simp [syncUser, he, hu, hguard, hmem]⟩

/-- C6: once a /sync/user request with a given eventId has succeeded, every
later request carrying the same eventId — whatever requests ran in between —
leaves the ledger and the user-profile table untouched and, whenever it
passes the field guard (a present, non-empty user id), answers skipped. -/
theorem sync_user_idempotent (st : DBState) (r r' : SyncRequest) (e : String)
    (rs : List SyncRequest)
    (hsucc : (syncUser st r).2 = SyncResponse.success)
    (he : r.eventId = some e) (he' : r'.eventId = some e) :
    (syncUser (runSync (syncUser st r).1 rs) r').1
        = runSync (syncUser st r).1 rs ∧
    (∀ uid, r'.userId = some uid → uid ≠ "" →
      (syncUser (runSync (syncUser st r).1 rs) r').2 = SyncResponse.skipped) := by
  obtain ⟨hne, hmem⟩ := syncUser_success_mem hsucc he
  exact syncUser_dedup (runSync_mem_mono rs _ hmem) he' hne

/-- Witness for C6: resubmitting the same event is skipped and writes
nothing. -/
theorem sync_user_idempotent_witness :
    (syncUser (runSync (syncUser ⟨[], []⟩
        ⟨some "ev1", some "u1", JSVal.null⟩).1 [])
        ⟨some "ev1", some "u1", JSVal.bool true⟩).1
      = runSync (syncUser ⟨[], []⟩ ⟨some "ev1", some "u1", JSVal.null⟩).1 [] ∧
    (∀ uid, (some "u1" : Option String) = some uid → uid ≠ "" →
      (syncUser (runSync (syncUser ⟨[], []⟩
          ⟨some "ev1", some "u1", JSVal.null⟩).1 [])
          ⟨some "ev1", some "u1", JSVal.bool true⟩).2 = SyncResponse.skipped) :=
  sync_user_idempotent ⟨[], []⟩ ⟨some "ev1", some "u1", JSVal.null⟩
    ⟨some "ev1", some "u1", JSVal.bool true⟩ "ev1" [] rfl rfl rfl

/-! ## Claim C8: authentication and validation precede all side effects -/

/-- C8: a missing or mismatched shared secret yields 403 with an empty
effect trace, and — past the secret — a missing or empty category or
commodity yields 400 with an empty effect trace: no provider call and no
store write happens on either path. -/
theorem auth_validation_before_side_effects (header : Option String)
    (secret : String) (category commodity : Option String)
    (currency unit : String) (pr : Option JSVal)
    (ins : Except Unit (Option Nat)) :
    (header = none → verifySecret header secret = false) ∧
    (∀ h, header = some h → h ≠ secret → verifySecret header secret = false) ∧
    (verifySecret header secret = false →
      listingSuggest header secret category commodity currency unit pr ins
        = (SuggestResponse.unauthorized, [])) ∧
    ((category = none ∨ commodity = none ∨ category = some "" ∨
        commodity = some "") →
      listingSuggest header secret category commodity currency unit pr ins
        = (SuggestResponse.unauthorized, []) ∨
      listingSuggest header secret category commodity currency unit pr ins
        = (SuggestResponse.badRequest, [])) := by
  refine ⟨fun hh => by simp [verifySecret, hh],
    fun h hh hneq => ?_, fun hv => by simp [listingSuggest, hv], fun hcc => ?_⟩
  · subst hh
    simp [verifySecret, hneq]
  · by_cases hv : verifySecret header secret = false
    · left; simp [listingSuggest, hv]
    · right
      rw [Bool.not_eq_false] at hv
      rcases hcc with h | h | h | h <;> subst h <;>
        first
          | (cases category <;> cases commodity <;> simp [listingSuggest, hv])
          | (cases commodity <;> simp [listingSuggest, hv])
          | (cases category <;> simp [listingSuggest, hv])
          | simp [listingSuggest, hv]

/-- Witness for C8: a wrong secret gives 403 with no effects; with the right
secret, a missing commodity gives 400 with no effects. -/
theorem auth_validation_before_side_effects_witness :
    listingSuggest (some "wrong") "s3cret" (some "grain") (some "wheat")
        "PLN" "t" none (Except.ok none)
      = (SuggestResponse.unauthorized, []) ∧
    (listingSuggest (some "s3cret") "s3cret" (some "grain") none
        "PLN" "t" none (Except.ok none)
      = (SuggestResponse.unauthorized, []) ∨
     listingSuggest (some "s3cret") "s3cret" (some "grain") none
        "PLN" "t" none (Except.ok none)
      = (SuggestResponse.badRequest, [])) :=
  ⟨(auth_validation_before_side_effects (some "wrong") "s3cret" (some "grain")
      (some "wheat") "PLN" "t" none (Except.ok none)).2.2.1
    ((auth_validation_before_side_effects (some "wrong") "s3cret" (some "grain")
      (some "wheat") "PLN" "t" none (Except.ok none)).2.1 "wrong" rfl
        (by decide)),
   (auth_validation_before_side_effects (some "s3cret") "s3cret" (some "grain")
      none "PLN" "t" none (Except.ok none)).2.2.2 (Or.inr (Or.inl rfl))⟩

/-! ## Claim C7: failure policy of the interaction insert -/

/-- Counterexample to C7 as stated: with a valid secret and fields and a
successfully hardened output, a failing ai_interactions insert makes the
whole request fail with a 500 — the client never receives the hardened
suggestion. -/
theorem record_failure_fails_request :
    listingSuggest (some "s3cret") "s3cret" (some "grain") (some "wheat")
        "PLN" "t" (some (JSVal.obj [])) (Except.error ())
      = (SuggestResponse.serverError,
         [Effect.providerCall, Effect.interactionInsertAttempt]) := rfl

/-- C7 (amended): the interaction insert is not a best-effort side channel:
it sits on the success path before res.json with no catch of its own, so an
insert failure turns an otherwise-successful generation into a 500, and the
hardened suggestion reaches the client only when the insert succeeds (then
with the returned id, or without an interactionId property when the insert
returns no row). -/
theorem record_failure_policy (header : Option String) (secret : String)
    (cs ms : String) (currency unit : String) (pr : Option JSVal)
    (fs : List (String × JSVal))
    (hauth : verifySecret header secret = true)
    (hcs : cs ≠ "") (hms : ms ≠ "")
    (hfs : harden pr currency unit = some fs) :
    listingSuggest header secret (some cs) (some ms) currency unit pr
        (Except.error ())
      = (SuggestResponse.serverError,
         [Effect.providerCall, Effect.interactionInsertAttempt]) ∧
    (∀ idOpt, listingSuggest header secret (some cs) (some ms) currency unit pr
        (Except.ok idOpt)
      = (SuggestResponse.ok (suggestResponseBody idOpt fs),
         [Effect.providerCall, Effect.interactionInsertAttempt])) := by
  constructor
  · simp [listingSuggest, hauth, hcs, hms, hfs]
  · intro idOpt
    simp [listingSuggest, hauth, hcs, hms, hfs]

/-- Witness for C7 (amended): concrete failing and succeeding inserts around
the same hardened output. -/
theorem record_failure_policy_witness :
    listingSuggest (some "s3cret") "s3cret" (some "grain") (some "wheat")
        "PLN" "t" none (Except.error ())
      = (SuggestResponse.serverError,
         [Effect.providerCall, Effect.interactionInsertAttempt]) ∧
    (∀ idOpt, listingSuggest (some "s3cret") "s3cret" (some "grain")
        (some "wheat") "PLN" "t" none (Except.ok idOpt)
      = (SuggestResponse.ok (suggestResponseBody idOpt
          (hardenSteps (fallbackFields "PLN" "t") "PLN" "t")),
         [Effect.providerCall, Effect.interactionInsertAttempt])) :=
  record_failure_policy (some "s3cret") "s3cret" "grain" "wheat" "PLN" "t"
    none (hardenSteps (fallbackFields "PLN" "t") "PLN" "t")
    rfl (by decide) (by decide) rfl

/-! ## Claim C9: the response spread forwards unvalidated extra fields

JSON.parse yields objects with pairwise-distinct keys, captured by a Nodup
hypothesis on the own-property names. -/

theorem mem_keys_setF {fs : List (String × JSVal)} {k x : String} {v : JSVal}
    (h : x ∈ (setF fs k v).map Prod.fst) :
    x ∈ fs.map Prod.fst ∨ x = k := by
  induction fs with
  | nil =>
      simp [setF] at h
      exact Or.inr h
  | cons p rest ih =>
      obtain ⟨k', w⟩ := p
      by_cases hk : k' = k
      · subst hk
        simp only [setF] at h
        rw [if_pos trivial] at h
        simp only [List.map_cons, List.mem_cons] at h
        rcases h with h | h
        · exact Or.inr h
        · exact Or.inl (List.mem_cons_of_mem _ h)
      · simp only [setF] at h
        rw [if_neg hk] at h
        simp only [List.map_cons, List.mem_cons] at h
        rcases h with h | h
        · exact Or.inl (by simp [h])
        · rcases ih h with h2 | h2
          · exact Or.inl (List.mem_cons_of_mem _ h2)
          · exact Or.inr h2

theorem nodup_keys_setF {fs : List (String × JSVal)} (k : String) (v : JSVal)
    (h : (fs.map Prod.fst).Nodup) : ((setF fs k v).map Prod.fst).Nodup := by
  induction fs with
  | nil => simp [setF]
  | cons p rest ih =>
      obtain ⟨k', w⟩ := p
      simp only [List.map_cons, List.nodup_cons] at h
      by_cases hk : k' = k
      · subst hk
        simpa [setF] using h
      · simp only [setF, hk, if_false, List.map_cons, List.nodup_cons]
        refine ⟨fun hmem => ?_, ih h.2⟩
        rcases mem_keys_setF hmem with h2 | h2
        · exact h.1 h2
        · exact hk h2

theorem nodup_keys_pushMF {fs : List (String × JSVal)} (v : JSVal)
    (h : (fs.map Prod.fst).Nodup) : ((pushMF fs v).map Prod.fst).Nodup := by
  cases hm : getF fs "missingFields" with
  | none => simpa [pushMF, hm] using h
  | some w =>
      cases w with
      | arr xs =>
          simp only [pushMF, hm]
          exact nodup_keys_setF _ _ h
      | null => simpa [pushMF, hm] using h
      | bool b => simpa [pushMF, hm] using h
      | num q f => simpa [pushMF, hm] using h
      | str t => simpa [pushMF, hm] using h
      | obj o => simpa [pushMF, hm] using h

theorem nodup_keys_stepMissingFields {fs : List (String × JSVal)}
    (h : (fs.map Prod.fst).Nodup) :
    ((stepMissingFields fs).map Prod.fst).Nodup := by
  cases hm : getF fs "missingFields" with
  | none => simp only [stepMissingFields, hm]; exact nodup_keys_setF _ _ h
  | some w =>
      cases w <;> simp only [stepMissingFields, hm] <;>
        first | exact h | exact nodup_keys_setF _ _ h

theorem nodup_keys_stepConfidence {fs : List (String × JSVal)}
    (h : (fs.map Prod.fst).Nodup) :
    ((stepConfidence fs).map Prod.fst).Nodup := by
  cases hm : getF fs "confidence" with
  | none => simp only [stepConfidence, hm]; exact nodup_keys_setF _ _ h
  | some w =>
      cases w with
      | str c =>
          simp only [stepConfidence, hm]
          split_ifs
          · exact h
          · exact nodup_keys_setF _ _ h
      | null => simp only [stepConfidence, hm]; exact nodup_keys_setF _ _ h
      | bool b => simp only [stepConfidence, hm]; exact nodup_keys_setF _ _ h
      | num q f => simp only [stepConfidence, hm]; exact nodup_keys_setF _ _ h
      | arr xs => simp only [stepConfidence, hm]; exact nodup_keys_setF _ _ h
      | obj o => simp only [stepConfidence, hm]; exact nodup_keys_setF _ _ h

theorem nodup_keys_stepPrice {fs : List (String × JSVal)} (currency unit : String)
    (h : (fs.map Prod.fst).Nodup) :
    ((stepPrice fs currency unit).map Prod.fst).Nodup := by
  by_cases hps : psOkCheck fs = true
  · rwa [stepPrice_id currency unit hps]
  · simp only [stepPrice]
    rw [if_neg (by simp [hps])]
    exact nodup_keys_pushMF _ (nodup_keys_setF _ _ (nodup_keys_setF _ _ h))

theorem nodup_keys_stepDescription {fs : List (String × JSVal)}
    (h : (fs.map Prod.fst).Nodup) :
    ((stepDescription fs).map Prod.fst).Nodup := by
  cases hm : getF fs "description" with
  | none =>
      simp only [stepDescription, hm]
      exact nodup_keys_pushMF _ (nodup_keys_setF _ _ (nodup_keys_setF _ _ h))
  | some w =>
      cases w <;> simp only [stepDescription, hm] <;>
        first
          | exact h
          | exact nodup_keys_pushMF _ (nodup_keys_setF _ _ (nodup_keys_setF _ _ h))

theorem nodup_keys_stepLength {fs : List (String × JSVal)}
    (h : (fs.map Prod.fst).Nodup) :
    ((stepLength fs).map Prod.fst).Nodup := by
  cases hm : getF fs "description" with
  | none => simpa [stepLength, hm] using h
  | some v =>
      cases v with
      | str s =>
          by_cases hlen : (jsTrim s).length < descThreshold
          · simp only [stepLength, hm]
            rw [if_pos hlen]
            have hsf : ((setF fs "confidence" (JSVal.str "low")).map
                Prod.fst).Nodup := nodup_keys_setF _ _ h
            cases hmf2 : getF (setF fs "confidence" (JSVal.str "low"))
                "missingFields" with
            | none => simpa using hsf
            | some w =>
                cases w with
                | arr xs =>
                    simp only []
                    split_ifs
                    · exact hsf
                    · exact nodup_keys_pushMF _ hsf
                | null => simpa using hsf
                | bool b => simpa using hsf
                | num q f => simpa using hsf
                | str t => simpa using hsf
                | obj o => simpa using hsf
          · rwa [stepLength_id hm hlen]
      | null => simpa [stepLength, hm] using h
      | bool b => simpa [stepLength, hm] using h
      | num q f => simpa [stepLength, hm] using h
      | arr xs => simpa [stepLength, hm] using h
      | obj o => simpa [stepLength, hm] using h

theorem nodup_keys_hardenSteps {fs : List (String × JSVal)}
    (currency unit : String) (h : (fs.map Prod.fst).Nodup) :
    ((hardenSteps fs currency unit).map Prod.fst).Nodup :=
  nodup_keys_stepLength (nodup_keys_stepDescription (nodup_keys_stepPrice
    currency unit (nodup_keys_stepConfidence (nodup_keys_stepMissingFields h))))

/-- The hardening statements never touch a key outside the four schema
fields. -/
theorem getF_hardenSteps_ne (fs : List (String × JSVal))
    (currency unit key : String)
    (h1 : key ≠ "description") (h2 : key ≠ "priceSuggestion")
    (h3 : key ≠ "confidence") (h4 : key ≠ "missingFields") :
    getF (hardenSteps fs currency unit) key = getF fs key := by
  unfold hardenSteps
  rw [getF_stepLength_ne _ _ h3 h4, getF_stepDescription_ne _ _ h1 h3 h4,
    getF_stepPrice_ne _ _ _ _ h2 h3 h4, getF_stepConfidence_ne _ _ h3,
    getF_stepMissingFields_ne _ _ h4]

theorem spreadInto_not_mem {src : List (String × JSVal)} (base : List (String × JSVal))
    {k : String} (h : k ∉ src.map Prod.fst) :
    getF (spreadInto base src) k = getF base k := by
  induction src generalizing base with
  | nil => rfl
  | cons p rest ih =>
      obtain ⟨k1, v1⟩ := p
      simp only [List.map_cons, List.mem_cons, not_or] at h
      show getF (spreadInto (setF base k1 v1) rest) k = getF base k
      rw [ih (setF base k1 v1) h.2, getF_setF_ne _ _ _ _ h.1]

theorem spreadInto_getF {src : List (String × JSVal)} (base : List (String × JSVal))
    {k : String} {v : JSVal} (hnd : (src.map Prod.fst).Nodup)
    (h : getF src k = some v) :
    getF (spreadInto base src) k = some v := by
  induction src generalizing base with
  | nil => simp [getF] at h
  | cons p rest ih =>
      obtain ⟨k1, v1⟩ := p
      simp only [List.map_cons, List.nodup_cons] at hnd
      by_cases hk : k1 = k
      · subst hk
        rw [getF_cons, if_pos rfl] at h
        injection h with h
        show getF (spreadInto (setF base k1 v1) rest) k1 = some v
        rw [spreadInto_not_mem _ hnd.1, getF_setF_self, h]
      · rw [getF_cons, if_neg hk] at h
        show getF (spreadInto (setF base k1 v1) rest) k = some v
        exact ih (setF base k1 v1) hnd.2 h

/-- C9: every own property of the parsed model output whose key is outside
the four schema fields survives the hardening untouched and is copied into
the response body by the final object spread — the client receives it
unvalidated. -/
theorem extra_fields_forwarded (fields : List (String × JSVal))
    (currency unit : String) (idOpt : Option Nat) (k : String) (v : JSVal)
    (hnd : (fields.map Prod.fst).Nodup)
    (h1 : k ≠ "description") (h2 : k ≠ "priceSuggestion")
    (h3 : k ≠ "confidence") (h4 : k ≠ "missingFields")
    (hv : getF fields k = some v) :
    getF (suggestResponseBody idOpt (hardenSteps fields currency unit)) k
      = some v := by
  have hpres : getF (hardenSteps fields currency unit) k = some v := by
    rw [getF_hardenSteps_ne _ _ _ _ h1 h2 h3 h4]; exact hv
  exact spreadInto_getF _ (nodup_keys_hardenSteps currency unit hnd) hpres

/-- Witness for C9: a "vendorNote" property invented by the model reaches the
client verbatim. -/
theorem extra_fields_forwarded_witness :
    getF (suggestResponseBody (some 7)
        (hardenSteps [("vendorNote", JSVal.str "keep me")] "PLN" "t"))
      "vendorNote" = some (JSVal.str "keep me") :=
  extra_fields_forwarded [("vendorNote", JSVal.str "keep me")] "PLN" "t"
    (some 7) "vendorNote" (JSVal.str "keep me") (by simp)
    (by decide) (by decide) (by decide) (by decide) rfl

/-- C10: every successful /agent/user-chat response carries the hard-coded
confidence of its revision — "high" in src/server.js, "medium" in the
src/unnamed/part_000 revision — independent of the message, the listing and
transaction counts, and the provider's reply. -/
theorem chat_confidence_constant (userId message : Option String)
    (listingCount txCount : Nat) (reply : String) :
    (∀ body, userChat userId message listingCount txCount reply
        = ChatResponse.ok body →
      getF body "confidence" = some (JSVal.str "high")) ∧
    (∀ body, userChatV2 userId message listingCount txCount reply
        = ChatResponse.ok body →
      getF body "confidence" = some (JSVal.str "medium")) := by
  constructor
  · intro body hb
    cases hu : userId with
    | none => rw [hu] at hb; exact absurd hb (by simp [userChat])
    | some uid =>
        cases hm : message with
        | none => rw [hu, hm] at hb; exact absurd hb (by simp [userChat])
        | some m =>
            rw [hu, hm] at hb
            by_cases hg : uid = "" ∨ m = ""
            · exact absurd hb (by simp [userChat, hg])
            · simp only [userChat, hg, if_false] at hb
              injection hb with hb
              rw [← hb]
              rfl
  · intro body hb
    cases hu : userId with
    | none => rw [hu] at hb; exact absurd hb (by simp [userChatV2])
    | some uid =>
        cases hm : message with
        | none => rw [hu, hm] at hb; exact absurd hb (by simp [userChatV2])
        | some m =>
            rw [hu, hm] at hb
            by_cases hg : uid = "" ∨ jsTrim m = ""
            · exact absurd hb (by simp [userChatV2, hg])
            · simp only [userChatV2, hg, if_false] at hb
              injection hb with hb
              rw [← hb]
              rfl

/-- Witness for C10: a concrete chat exchange in both revisions. -/
theorem chat_confidence_constant_witness :
    getF [("response", JSVal.str "hello farmer"),
          ("confidence", JSVal.str "high")] "confidence"
      = some (JSVal.str "high") ∧
    getF [("response", JSVal.str "hello farmer"),
          ("confidence", JSVal.str "medium"),
          ("cards", JSVal.arr []),
          ("suggestions", JSVal.arr
            [JSVal.str "Show my best buyers",
             JSVal.str "Which listings should I improve?",
             JSVal.str "Help me write a better listing description",
             JSVal.str "Suggest a price range for my wheat listing"])]
        "confidence"
      = some (JSVal.str "medium") :=
  ⟨(chat_confidence_constant (some "u1") (some "price of wheat?") 3 5
      "hello farmer").1 _ rfl,
   (chat_confidence_constant (some "u1") (some "price of wheat?") 3 5
      "hello farmer").2 _ rfl⟩

end PlainGrain
